import Mathlib

set_option maxRecDepth 10000
set_option exponentiation.threshold 2000

/-!
Verification of the expense-bot core logic

A shallow embedding of `src/main.py` (an expense-tracking chat bot):

* `parse_expense`   — the free-text expense parser (`main.py`, `parse_expense`);
* `get_period_bounds` — the period keyword resolver (`main.py`, `get_period_bounds`);
* `stats` / `add_expense` — the SQL aggregation and insertion paths, modelled as
  pure functions over an in-memory list of rows.

Modelling conventions:

* Python `float` values are modelled by `PyFloat`: either `nan`, `±inf`, or a
  finite value carried as the exact rational value of the accepted literal.
  (CPython additionally rounds the literal's value to the nearest binary64;
  every theorem below either works at the token level or uses values that are
  exactly representable, so that rounding step is not modelled, except for the
  overflow-to-infinity threshold, which is.)
* Strings are handled through their `List Char` data; the Python `str`
  operations used by the source (`strip`, `split(maxsplit=2)`, `replace`,
  `lower`) are reimplemented below.  `str.lower` is modelled on the ASCII and
  Cyrillic ranges, the only ones the program's keywords use; `str.isspace`
  uses CPython's whitespace set.  CPython's `float()` also accepts non-ASCII
  decimal digits (it transliterates them to ASCII first); that transliteration
  is not modelled, so the float grammar here is the ASCII one.
* Timestamps (`created_at`, interval bounds of the SQL queries) are instants,
  integers of microseconds; `TIMESTAMPTZ` comparison is their linear order.
-/

/-- A Python `float` value as far as this program observes it: `nan`, the two
infinities, or a finite value (carried exactly, see the module docstring). -/
inductive PyFloat where
  | finite (v : ℚ)
  | inf
  | neginf
  | nan
  deriving DecidableEq, Inhabited

namespace PyFloat

/-- Finiteness of a `PyFloat`. -/
def isFinite : PyFloat → Bool
  | finite _ => true
  | _ => false

end PyFloat

/-- CPython's `str.isspace` character set (`Py_UNICODE_ISSPACE`), which also
drives `str.strip()` and `str.split()` with no separator. -/
def pyIsSpace (c : Char) : Bool :=
  let n := c.toNat
  (9 ≤ n && n ≤ 13) || (28 ≤ n && n ≤ 31) || n == 32 || n == 0x85 || n == 0xA0 ||
  n == 0x1680 || (0x2000 ≤ n && n ≤ 0x200A) || n == 0x2028 || n == 0x2029 ||
  n == 0x202F || n == 0x205F || n == 0x3000

/-- ASCII lower-casing of one character (CPython compares the `inf`/`nan`
spellings case-insensitively at the ASCII level). -/
def asciiLower (c : Char) : Char :=
  if 65 ≤ c.toNat && c.toNat ≤ 90 then Char.ofNat (c.toNat + 32) else c

/-- One-character lower-casing as `str.lower()` performs it, on the ASCII and
Cyrillic ranges (`A`–`Z`, `А`–`Я`, `Ё`); other characters are untouched.
These are the only ranges exercised by the program's keywords and categories
appearing in the specification. -/
def charLower (c : Char) : Char :=
  let n := c.toNat
  if 65 ≤ n && n ≤ 90 then Char.ofNat (n + 32)
  else if 0x410 ≤ n && n ≤ 0x42F then Char.ofNat (n + 32)
  else if n == 0x401 then Char.ofNat 0x451
  else c

/-- Python `str.lower()` on character lists. -/
def pyLowerL (l : List Char) : List Char := l.map charLower

/-- Python `str.lower()`. -/
def pyLower (s : String) : String := ⟨pyLowerL s.data⟩

/-- Python `str.strip()` on character lists: drop leading and trailing whitespace. -/
def stripL (l : List Char) : List Char :=
  ((l.dropWhile pyIsSpace).reverse.dropWhile pyIsSpace).reverse

/-- The longest non-whitespace prefix (the next whitespace-delimited token). -/
def takeTok (l : List Char) : List Char := l.takeWhile (fun c => !pyIsSpace c)

/-- What remains after the next token. -/
def dropTok (l : List Char) : List Char := l.dropWhile (fun c => !pyIsSpace c)

/-- Python `str.split(maxsplit=2)` with no separator, as CPython implements it:
runs of whitespace separate tokens, no empty tokens, and once two splits have
happened the remainder of the string (with only its leading whitespace
skipped) is the final chunk, its internal whitespace preserved. -/
def splitMax2L (l : List Char) : List (List Char) :=
  let l1 := l.dropWhile pyIsSpace
  if l1.isEmpty then []
  else
    let t1 := takeTok l1
    let r1 := (dropTok l1).dropWhile pyIsSpace
    if r1.isEmpty then [t1]
    else
      let t2 := takeTok r1
      let r2 := (dropTok r1).dropWhile pyIsSpace
      if r2.isEmpty then [t1, t2] else [t1, t2, r2]

/-- ASCII digit test (`Char.isDigit`, phrased on code points). -/
def isDig (c : Char) : Bool := 48 ≤ c.toNat && c.toNat ≤ 57

/-- Scan for misplaced underscores, where `prev` is the preceding character:
an underscore is legal only with an ASCII digit on both sides. -/
def undOKStep (prev : Char) : List Char → Bool
  | [] => true
  | c :: rest =>
    (if c = '_' then isDig prev && isDig (rest.headD ' ') else true) &&
      undOKStep c rest

/-- Placement check for underscores in CPython's numeric literal parsing: every
underscore must sit between two ASCII digits. -/
def undOK (l : List Char) : Bool :=
  match l with
  | [] => true
  | c :: rest => c != '_' && undOKStep c rest

/-- Remove underscores (CPython parses the literal with them removed once
`undOK` has validated their placement). -/
def stripU (l : List Char) : List Char := l.filter (fun c => c != '_')

/-- Numeric value of a list of ASCII digits, most significant first. -/
def digitsVal (l : List Char) : ℕ := l.foldl (fun acc c => 10 * acc + (c.toNat - 48)) 0

/-- Split off the longest ASCII-digit prefix. -/
def spanDigits (l : List Char) : List Char × List Char :=
  (l.takeWhile isDig, l.dropWhile isDig)

/-- Split one optional leading sign off a literal: `(negative?, rest)`. -/
def splitSign (l : List Char) : Bool × List Char :=
  match l with
  | c :: r => if c = '-' then (true, r) else if c = '+' then (false, r) else (false, l)
  | [] => (false, [])

/-- Parse the exponent part following `e`/`E`: optional sign, one or more
digits, end of string.  Returns the exponent. -/
def parseExpPart (l : List Char) : Option ℤ :=
  let (neg, body) := splitSign l
  let (d, rest) := spanDigits body
  if d.isEmpty || !rest.isEmpty then none
  else some (if neg then -(digitsVal d : ℤ) else (digitsVal d : ℤ))

/-- Scale a numerator/denominator pair by `10 ^ z` (the exponent part of a
float literal). -/
def applyExp (p : ℤ × ℕ) (z : ℤ) : ℤ × ℕ :=
  match z with
  | .ofNat n => (p.1 * 10 ^ n, p.2)
  | .negSucc n => (p.1, p.2 * 10 ^ (n + 1))

/-- CPython's unsigned float numeric-literal grammar (underscores already
removed): `digits [. digits] [exp]` or `. digits [exp]`, exponent `e|E`
optional sign then digits; the whole string must be consumed.  Returns the
exact value of the literal as a numerator/denominator pair. -/
def parseNumParts (l : List Char) : Option (ℤ × ℕ) :=
  let (d1, r1) := spanDigits l
  match r1 with
  | [] => if d1.isEmpty then none else some ((digitsVal d1 : ℤ), 1)
  | '.' :: r2 =>
    let (d2, r3) := spanDigits r2
    if d1.isEmpty && d2.isEmpty then none
    else
      let mant : ℤ × ℕ :=
        ((digitsVal d1 * 10 ^ d2.length + digitsVal d2 : ℤ), 10 ^ d2.length)
      match r3 with
      | [] => some mant
      | 'e' :: r4 => (parseExpPart r4).map (applyExp mant)
      | 'E' :: r4 => (parseExpPart r4).map (applyExp mant)
      | _ => none
  | 'e' :: r4 =>
    if d1.isEmpty then none
    else (parseExpPart r4).map (applyExp ((digitsVal d1 : ℤ), 1))
  | 'E' :: r4 =>
    if d1.isEmpty then none
    else (parseExpPart r4).map (applyExp ((digitsVal d1 : ℤ), 1))
  | _ => none

/-- The quantity `2^1024 - 2^970` as a natural number. -/
def OVERN : ℕ := 2 ^ 1024 - 2 ^ 970

/-- The binary64 overflow threshold: a literal whose magnitude reaches
`2^1024 - 2^970` (the midpoint above the largest finite double) rounds to
infinity under round-to-nearest-even. -/
def OVERFLOW : ℚ := mkRat (OVERN : ℤ) 1

/-- The quantity `-(2^1024 - 2^970)` as a rational. -/
def NEGOVERFLOW : ℚ := mkRat (-(OVERN : ℤ)) 1

/-- CPython's `float(str)` on a whitespace-free token: optional sign, then
`inf`/`infinity`/`nan` (ASCII case-insensitive) or a numeric literal with
underscores allowed between digits; `none` models `ValueError`.  Finite
literals at or beyond the binary64 overflow threshold yield `±inf`. -/
def floatOfToken (l : List Char) : Option PyFloat :=
  if l.isEmpty then none
  else
    let (neg, body) := splitSign l
    let low := body.map asciiLower
    if low = "inf".data || low = "infinity".data then
      some (if neg then .neginf else .inf)
    else if low = "nan".data then some .nan
    else if undOK body then
      match parseNumParts (stripU body) with
      | none => none
      | some p =>
        let v : ℚ := mkRat (if neg then -p.1 else p.1) p.2
        if OVERFLOW ≤ v then some .inf
        else if v ≤ NEGOVERFLOW then some .neginf
        else some (.finite v)
    else none

/-- Python `str.replace(",", ".")`. -/
def normCommaL (l : List Char) : List Char := l.map (fun c => if c = ',' then '.' else c)

/-- The function `parse_expense` (`src/main.py`, lines 42–55): strip, split into at most
three whitespace-delimited parts, `float` the first part with commas
normalized to dots, default the category to `"прочее"`, glue a third part
onto the second with a single space, and lower-case the category. -/
def parse_expense (text : String) : Option (PyFloat × String) :=
  let parts := splitMax2L (stripL text.data)
  match parts with
  | [] => none
  | t1 :: restParts =>
    match floatOfToken (normCommaL t1) with
    | none => none
    | some amount =>
      let category : List Char :=
        match restParts with
        | [] => "прочее".data
        | [t2] => t2
        | t2 :: t3 :: _ => t2 ++ ' ' :: t3
      some (amount, ⟨pyLowerL category⟩)

example : parse_expense "200" = some (.finite 200, "прочее") := by decide
example : parse_expense "15 кофе late" = some (.finite 15, "кофе late") := by decide
example : parse_expense "3,5 Еда Кафе" = some (.finite (mkRat 7 2), "еда кафе") := by decide
example : parse_expense "" = none := by decide
example : parse_expense "   " = none := by decide
example : parse_expense "abc food" = none := by decide
example : parse_expense "nan кофе" = some (.nan, "кофе") := by decide
example : parse_expense "-5 food" = some (.finite (-5), "food") := by decide
example : parse_expense "5 x  y" = some (.finite 5, "x y") := by decide
example : parse_expense "1_0 food" = some (.finite 10, "food") := by decide
example : parse_expense "1_ food" = none := by decide
example : parse_expense "1e3 food" = some (.finite 1000, "food") := by decide

/-! Calendar model for `get_period_bounds`.

`datetime.now(timezone.utc)` is modelled as a `DateTime` value passed in as a
parameter (the code captures it once per call).  The proleptic Gregorian
ordinal (`date.toordinal`), `date.weekday` (`(toordinal + 6) % 7`, Monday is
0), and `datetime - timedelta(days=n)` (same time of day, ordinal moved back
by `n`) follow CPython's `datetime` module. -/

/-- Gregorian leap year (`calendar.isleap`). -/
def isLeap (y : ℕ) : Bool := (y % 4 == 0 && y % 100 != 0) || y % 400 == 0

/-- Length of month `m` of year `y` (months are 1-based). -/
def daysInMonth (y m : ℕ) : ℕ :=
  if m = 2 then (if isLeap y then 29 else 28)
  else if m = 4 ∨ m = 6 ∨ m = 9 ∨ m = 11 then 30
  else 31

/-- Days in the months of year `y` strictly before month `m`. -/
def daysBeforeMonth (y : ℕ) : ℕ → ℕ
  | 0 => 0
  | 1 => 0
  | m + 1 => daysBeforeMonth y m + daysInMonth y m

/-- Days before January 1 of year `y` (CPython `datetime._days_before_year`). -/
def daysBeforeYear (y : ℕ) : ℕ :=
  (y - 1) * 365 + (y - 1) / 4 - (y - 1) / 100 + (y - 1) / 400

/-- A timezone-aware Python `datetime` (the program only ever builds UTC
ones), with Python's field ranges as the validity predicate `Valid`. -/
structure DateTime where
  year : ℕ
  month : ℕ
  day : ℕ
  hour : ℕ
  minute : ℕ
  second : ℕ
  microsecond : ℕ
  deriving DecidableEq

namespace DateTime

/-- Python's `datetime` field invariants (`MINYEAR = 1`, `MAXYEAR = 9999`). -/
def Valid (t : DateTime) : Prop :=
  1 ≤ t.year ∧ t.year ≤ 9999 ∧ 1 ≤ t.month ∧ t.month ≤ 12 ∧
  1 ≤ t.day ∧ t.day ≤ daysInMonth t.year t.month ∧
  t.hour ≤ 23 ∧ t.minute ≤ 59 ∧ t.second ≤ 59 ∧ t.microsecond ≤ 999999

instance (t : DateTime) : Decidable t.Valid := by unfold Valid; infer_instance

/-- Python `date.toordinal()`: day 1 is January 1 of year 1. -/
def toOrdinal (t : DateTime) : ℕ :=
  daysBeforeYear t.year + daysBeforeMonth t.year t.month + t.day

/-- Python `date.weekday()`: 0 is Monday (so ordinal 1, 0001-01-01, is a Monday). -/
def weekday (t : DateTime) : ℕ := (toOrdinal t + 6) % 7

/-- The calendar date one day earlier, time of day unchanged. -/
def prevDay (t : DateTime) : DateTime :=
  if 1 < t.day then { t with day := t.day - 1 }
  else if 1 < t.month then
    { t with month := t.month - 1, day := daysInMonth t.year (t.month - 1) }
  else { t with year := t.year - 1, month := 12, day := 31 }

/-- Python `datetime - timedelta(days=n)`: the date moves back `n` days, the time of
day is unchanged. -/
def subDays : DateTime → ℕ → DateTime
  | t, 0 => t
  | t, n + 1 => subDays t.prevDay n

/-- Python `.replace(hour=0, minute=0, second=0, microsecond=0)`. -/
def atMidnight (t : DateTime) : DateTime :=
  { t with hour := 0, minute := 0, second := 0, microsecond := 0 }

/-- Python `.replace(day=1, hour=0, minute=0, second=0, microsecond=0)`. -/
def firstOfMonth (t : DateTime) : DateTime :=
  { t with day := 1, hour := 0, minute := 0, second := 0, microsecond := 0 }

/-- Microseconds since the epoch of ordinal 0: the instant a `DateTime`
denotes.  Python compares `datetime`s by exactly this quantity. -/
def instant (t : DateTime) : ℤ :=
  (toOrdinal t : ℤ) * 86400000000 +
    (((t.hour * 60 + t.minute) * 60 + t.second) * 1000000 + t.microsecond)

end DateTime

/-- The function `get_period_bounds` (`src/main.py`, lines 57–72): lower-case the keyword
(`None` behaves as `""` via `period or ""`), then select today / the current
ISO week / the current month as the window start; the end is always the
captured `now`. -/
def get_period_bounds (period : Option String) (now : DateTime) :
    DateTime × DateTime :=
  let p := pyLower (period.getD "")
  if p = "day" ∨ p = "сегодня" ∨ p = "день" then
    (now.atMidnight, now)
  else if p = "week" ∨ p = "неделя" then
    ((now.subDays now.weekday).atMidnight, now)
  else
    (now.firstOfMonth, now)

example : DateTime.weekday ⟨2024, 1, 1, 0, 0, 0, 0⟩ = 0 := by decide
example : DateTime.weekday ⟨2025, 10, 12, 15, 30, 0, 0⟩ = 6 := by decide
example : DateTime.toOrdinal ⟨2024, 1, 1, 0, 0, 0, 0⟩ = 738886 := by decide
example :
    get_period_bounds (some "Неделя") ⟨2025, 10, 8, 12, 0, 0, 5⟩ =
      (⟨2025, 10, 6, 0, 0, 0, 0⟩, ⟨2025, 10, 8, 12, 0, 0, 5⟩) := by decide
example :
    get_period_bounds none ⟨2025, 10, 8, 12, 0, 0, 5⟩ =
      (⟨2025, 10, 1, 0, 0, 0, 0⟩, ⟨2025, 10, 8, 12, 0, 0, 5⟩) := by decide
example :
    get_period_bounds (some "DAY") ⟨2025, 10, 8, 12, 0, 0, 5⟩ =
      (⟨2025, 10, 8, 0, 0, 0, 0⟩, ⟨2025, 10, 8, 12, 0, 0, 5⟩) := by decide
example :
    get_period_bounds (some "last year") ⟨2025, 10, 8, 12, 0, 0, 5⟩ =
      (⟨2025, 10, 1, 0, 0, 0, 0⟩, ⟨2025, 10, 8, 12, 0, 0, 5⟩) := by decide
example :
    get_period_bounds (some "week") ⟨2025, 1, 1, 7, 0, 0, 0⟩ =
      (⟨2024, 12, 30, 0, 0, 0, 0⟩, ⟨2025, 1, 1, 7, 0, 0, 0⟩) := by decide

/-! Ledger store.

The `expenses` table is modelled as a list of rows; `INSERT` appends.
`amount` is a `NUMERIC(12,2)` column: on insertion PostgreSQL rounds the
incoming value to two fractional digits (half away from zero); `NUMERIC`
arithmetic is exact decimal arithmetic with `NaN` and `±Infinity` absorbing,
and `ORDER BY ... DESC` sorts `NaN` above `Infinity` above finite values.
`SUM` over no rows is `NULL`, which the query wraps in `COALESCE(..., 0)`;
over `n ≥ 1` rows it is the exact sum.  Order among rows with equal totals is
unspecified by SQL; the model fixes the stable insertion order (no theorem
below depends on tie order). -/

/-- Exact rational addition, computed on numerators and denominators. -/
def qAdd (a b : ℚ) : ℚ := mkRat (a.num * b.den + b.num * a.den) (a.den * b.den)

namespace PyFloat

/-- PostgreSQL `NUMERIC` addition: exact on finite values, `NaN` absorbing,
`Infinity + (-Infinity)` is `NaN`. -/
def add : PyFloat → PyFloat → PyFloat
  | nan, _ => nan
  | _, nan => nan
  | inf, neginf => nan
  | inf, _ => inf
  | neginf, inf => nan
  | neginf, _ => neginf
  | finite _, inf => inf
  | finite _, neginf => neginf
  | finite a, finite b => finite (qAdd a b)

/-- The `NUMERIC` sort order (`a ≤ b`): `NaN` greatest, then `Infinity`,
finite values, `-Infinity`. -/
def ble : PyFloat → PyFloat → Bool
  | nan, nan => true
  | _, nan => true
  | nan, _ => false
  | inf, inf => true
  | inf, _ => false
  | _, inf => true
  | neginf, _ => true
  | _, neginf => false
  | finite a, finite b => decide (a ≤ b)

end PyFloat

/-- Round a rational to an integer count of cents, half away from zero
(PostgreSQL `NUMERIC` rounding). -/
def roundCents (q : ℚ) : ℤ :=
  if 0 ≤ q.num then ((q.num.toNat * 200 + q.den) / (2 * q.den) : ℕ)
  else -(((-q.num).toNat * 200 + q.den) / (2 * q.den) : ℕ)

/-- Coercion into the `NUMERIC(12,2)` column type / the `::numeric(12,2)`
cast: finite values are rounded to two fractional digits, `NaN` and
`±Infinity` pass through. -/
def numeric2 : PyFloat → PyFloat
  | .finite v => .finite (mkRat (roundCents v) 100)
  | x => x

/-- One row of the `expenses` table (`id` is never observed by the program's
queries and is omitted). -/
structure Record where
  user_id : ℤ
  amount : PyFloat
  category : String
  created_at : ℤ
  deriving DecidableEq

/-- The `WHERE` clause shared by both statements of `stats`:
`user_id = %s AND created_at >= %s AND created_at <= %s`. -/
def inWindow (u s e : ℤ) (r : Record) : Bool :=
  r.user_id == u && decide (s ≤ r.created_at) && decide (r.created_at ≤ e)

/-- The distinct categories of a row list, in first-appearance order
(`GROUP BY category`; SQL fixes no group order, the `ORDER BY` does). -/
def categories (rs : List Record) : List String :=
  rs.foldl (fun acc r => if acc.contains r.category then acc else acc ++ [r.category]) []

/-- SQL `SUM(amount)` over a row list (the `0` seed is only reached for the empty
list, where the query's `COALESCE(SUM(amount), 0)` supplies the same `0`). -/
def sumAmounts (rs : List Record) : PyFloat :=
  rs.foldl (fun acc r => acc.add r.amount) (.finite 0)

/-- Insert into a list sorted by descending total, after existing entries
with an equal or larger total. -/
def insertDesc (x : String × PyFloat) : List (String × PyFloat) → List (String × PyFloat)
  | [] => [x]
  | y :: ys => if x.2.ble y.2 then y :: insertDesc x ys else x :: y :: ys

/-- SQL `ORDER BY total DESC` (stable; tie order is unspecified in SQL, see the
section comment). -/
def sortDesc (l : List (String × PyFloat)) : List (String × PyFloat) :=
  l.foldr insertDesc []

/-- The handler `stats` (`src/main.py`, lines 122–143), the two read-only queries: per
category in the window, `SUM(amount)::numeric(12,2)`, ordered by descending
total, paired with `COALESCE(SUM(amount), 0)::numeric(12,2)` over the whole
window. -/
def stats (u s e : ℤ) (table : List Record) :
    List (String × PyFloat) × PyFloat :=
  (sortDesc ((categories (table.filter (inWindow u s e))).map (fun c =>
      (c, numeric2 (sumAmounts ((table.filter (inWindow u s e)).filter
        (fun r => r.category == c)))))),
   numeric2 (sumAmounts (table.filter (inWindow u s e))))

/-- The handler `add_expense` (`src/main.py`, lines 99–114): parse the message text; on
rejection reply with the format reminder and write nothing (the table is
returned unchanged); on success insert one row, the amount passing through
the `NUMERIC(12,2)` column conversion, with the insertion-time timestamp
`t` (`created_at DEFAULT NOW()`).  Replies are transport effects and are not
modelled. -/
def add_expense (table : List Record) (user_id : ℤ) (text : String) (t : ℤ) :
    List Record :=
  match parse_expense text with
  | none => table
  | some (amount, category) => table ++ [⟨user_id, numeric2 amount, category, t⟩]

example :
    stats 1 0 100 [⟨1, .finite 10, "food", 5⟩, ⟨1, .finite 5, "food", 6⟩,
        ⟨1, .finite 3, "transport", 7⟩] =
      ([("food", .finite 15), ("transport", .finite 3)], .finite 18) := by decide
example :
    stats 1 0 100 [⟨1, .finite 10, "food", 100⟩] =
      ([("food", .finite 10)], .finite 10) := by decide
example : stats 1 0 100 [⟨1, .finite 10, "food", 101⟩] = ([], .finite 0) := by decide
example : stats 1 0 100 [⟨2, .finite 10, "food", 50⟩] = ([], .finite 0) := by decide
example :
    add_expense [] 7 "-5 food" 42 = [⟨7, .finite (-5), "food", 42⟩] := by decide
example : add_expense [] 7 "abc" 42 = [] := by decide
example :
    add_expense [] 7 "5.555 food" 42 = [⟨7, .finite (mkRat 556 100), "food", 42⟩] := by
  decide

/-! Claim-side predicates.

`DecimalLit` delimits the claims' quantification domain "a valid decimal
number (optionally using a comma as the decimal separator)": optional sign,
one or more digits, optionally a `.`/`,` separator followed by one or more
digits.  `CatGood` characterizes the category strings on which the parser's
tokenization is transparent: no leading or trailing whitespace, and a single
space between the category's first word and the (verbatim) remainder. -/

/-- Strip one optional leading `+`/`-`. -/
def dropSign (l : List Char) : List Char := (splitSign l).2

/-- A decimal numeral, optionally comma-separated: `[+|-] digits [(.|,) digits]`. -/
def DecimalLit (l : List Char) : Bool :=
  let (d1, r1) := spanDigits (dropSign l)
  match r1 with
  | [] => !d1.isEmpty
  | c :: r2 =>
    (c == '.' || c == ',') &&
      (let (d2, r3) := spanDigits r2
       !d1.isEmpty && !d2.isEmpty && r3.isEmpty)

/-- Category strings reproduced verbatim (lower-cased) by the parser: no
leading/trailing whitespace and a single space after the first word. -/
def CatGood (l : List Char) : Bool :=
  match l with
  | [] => false
  | c :: rest =>
    !pyIsSpace c && !pyIsSpace ((c :: rest).getLastD c) &&
      (let r := (dropTok (c :: rest)).dropWhile pyIsSpace
       (c :: rest) == takeTok (c :: rest) ++ (if r.isEmpty then [] else ' ' :: r))

example : DecimalLit "200".data = true := by decide
example : DecimalLit "3,5".data = true := by decide
example : DecimalLit "-5".data = true := by decide
example : DecimalLit "+5.25".data = true := by decide
example : DecimalLit "".data = false := by decide
example : DecimalLit "abc".data = false := by decide
example : DecimalLit "5.".data = false := by decide
example : DecimalLit "nan".data = false := by decide
example : CatGood "food".data = true := by decide
example : CatGood "кофе late".data = true := by decide
example : CatGood "кофе с  молоком".data = true := by decide
example : CatGood "x  y".data = false := by decide
example : CatGood " x".data = false := by decide
example : CatGood "x ".data = false := by decide

/-! Character-class lemmas. -/

lemma isDig_toNat {c : Char} (h : isDig c = true) : 48 ≤ c.toNat ∧ c.toNat ≤ 57 := by
  simpa [isDig] using h

lemma pyIsSpace_of_isDig {c : Char} (h : isDig c = true) : pyIsSpace c = false := by
  obtain ⟨h1, h2⟩ := isDig_toNat h
  simp only [pyIsSpace, Bool.or_eq_false_iff, Bool.and_eq_false_iff, beq_eq_false_iff_ne,
    ne_eq, decide_eq_false_iff_not, not_le]
  omega

lemma asciiLower_of_isDig {c : Char} (h : isDig c = true) : asciiLower c = c := by
  obtain ⟨h1, h2⟩ := isDig_toNat h
  have hc : (65 ≤ c.toNat && c.toNat ≤ 90) = false := by
    simp only [Bool.and_eq_false_iff, decide_eq_false_iff_not, not_le]
    omega
  simp [asciiLower, hc]

lemma isDig_ne_underscore {c : Char} (h : isDig c = true) : c ≠ '_' := by
  obtain ⟨h1, h2⟩ := isDig_toNat h
  intro hc
  subst hc
  simp at h2

lemma map_id_on {f : Char → Char} :
    ∀ {l : List Char}, (∀ c ∈ l, f c = c) → l.map f = l := by
  intro l h
  induction l with
  | nil => rfl
  | cons c r ih =>
    simp only [List.map_cons, h c (by simp), List.cons.injEq, true_and]
    exact ih fun x hx => h x (by simp [hx])

lemma undOKStep_of_no_underscore :
    ∀ {l : List Char} (prev : Char), (∀ c ∈ l, c ≠ '_') → undOKStep prev l = true := by
  intro l
  induction l with
  | nil => intro prev _; rfl
  | cons c r ih =>
    intro prev h
    have hc : c ≠ '_' := h c (by simp)
    simp only [undOKStep, if_neg hc, Bool.true_and]
    exact ih c fun x hx => h x (by simp [hx])

lemma undOK_of_no_underscore {l : List Char} (h : ∀ c ∈ l, c ≠ '_') :
    undOK l = true := by
  cases l with
  | nil => rfl
  | cons c r =>
    have hc : c ≠ '_' := h c (by simp)
    have hstep : undOKStep c r = true :=
      undOKStep_of_no_underscore c fun x hx => h x (by simp [hx])
    simp [undOK, hc, hstep]

lemma takeWhile_all {α : Type} {p : α → Bool} {l : List α} (h : ∀ c ∈ l, p c = true) :
    l.takeWhile p = l := by
  induction l with
  | nil => rfl
  | cons c r ih =>
    simp [List.takeWhile_cons, h c (by simp), ih fun x hx => h x (by simp [hx])]

lemma dropWhile_all {α : Type} {p : α → Bool} {l : List α} (h : ∀ c ∈ l, p c = true) :
    l.dropWhile p = [] := by
  induction l with
  | nil => rfl
  | cons c r ih =>
    simp [List.dropWhile_cons, h c (by simp), ih fun x hx => h x (by simp [hx])]

lemma isDig_ne {c : Char} (h : isDig c = true) :
    c ≠ '+' ∧ c ≠ '-' ∧ c ≠ '.' ∧ c ≠ ',' ∧ c ≠ '_' ∧ c ≠ 'i' ∧ c ≠ 'n' := by
  obtain ⟨h1, h2⟩ := isDig_toNat h
  refine ⟨?_, ?_, ?_, ?_, ?_, ?_, ?_⟩ <;>
    · intro hc; subst hc; simp at h1 h2


/-- Decompose a decimal literal into sign, integer digits and an optional
separator-plus-fraction tail. -/
lemma DecimalLit_view {l : List Char} (h : DecimalLit l = true) :
    ∃ sgn d1 tail, (sgn = ([] : List Char) ∨ sgn = ['+'] ∨ sgn = ['-']) ∧
      l = sgn ++ d1 ++ tail ∧ d1 ≠ [] ∧ (∀ c ∈ d1, isDig c = true) ∧
      (tail = [] ∨ ∃ d2, (tail = '.' :: d2 ∨ tail = ',' :: d2) ∧ d2 ≠ [] ∧
        ∀ c ∈ d2, isDig c = true) := by
  have hsplit : ∃ sgn, (sgn = ([] : List Char) ∨ sgn = ['+'] ∨ sgn = ['-']) ∧
      l = sgn ++ dropSign l := by
    cases l with
    | nil => exact ⟨[], Or.inl rfl, rfl⟩
    | cons c r =>
      by_cases h1 : c = '-'
      · exact ⟨['-'], Or.inr (Or.inr rfl), by simp [dropSign, splitSign, h1]⟩
      · by_cases h2 : c = '+'
        · exact ⟨['+'], Or.inr (Or.inl rfl), by simp [dropSign, splitSign, h1, h2]⟩
        · exact ⟨[], Or.inl rfl, by simp [dropSign, splitSign, h1, h2]⟩
  obtain ⟨sgn, hsgn, hl⟩ := hsplit
  have hd1 : ∀ c ∈ (dropSign l).takeWhile isDig, isDig c = true := fun c hc =>
    List.mem_takeWhile_imp hc
  have hspan := List.takeWhile_append_dropWhile isDig (dropSign l)
  simp only [DecimalLit, spanDigits] at h
  rcases hr : (dropSign l).dropWhile isDig with _ | ⟨c, r2⟩
  · rw [hr] at h hspan
    simp only [List.append_nil] at hspan
    simp only [Bool.not_eq_true', List.isEmpty_eq_false] at h
    exact ⟨sgn, (dropSign l).takeWhile isDig, [], hsgn,
      by rw [List.append_nil, hspan]; exact hl, h, hd1, Or.inl rfl⟩
  · rw [hr] at h hspan
    simp only [spanDigits, Bool.and_eq_true, Bool.or_eq_true, beq_iff_eq, Bool.not_eq_true',
      List.isEmpty_eq_false, List.isEmpty_eq_true] at h
    obtain ⟨hc, ⟨hd1ne, hd2ne⟩, hr3⟩ := h
    have hspan2 := List.takeWhile_append_dropWhile isDig r2
    rw [hr3, List.append_nil] at hspan2
    refine ⟨sgn, (dropSign l).takeWhile isDig, c :: r2, hsgn, ?_, hd1ne, hd1,
      Or.inr ⟨r2, ?_, ?_, ?_⟩⟩
    · rw [List.append_assoc, hspan]; exact hl
    · rcases hc with hc | hc
      · exact Or.inl (by rw [hc])
      · exact Or.inr (by rw [hc])
    · intro hnil
      rw [hnil] at hd2ne
      simp at hd2ne
    · intro x hx
      rw [← hspan2] at hx
      exact List.mem_takeWhile_imp hx

/-- A digit run followed by an optional `.`-fraction is accepted by the
numeric-literal grammar. -/
lemma parseNumParts_isSome {d1 tail : List Char} (hd1 : d1 ≠ [])
    (hdig : ∀ c ∈ d1, isDig c = true)
    (htail : tail = [] ∨ ∃ d2, tail = '.' :: d2 ∧ d2 ≠ [] ∧ ∀ c ∈ d2, isDig c = true) :
    (parseNumParts (d1 ++ tail)).isSome = true := by
  have htake : (d1 ++ tail).takeWhile isDig = d1 := by
    rcases htail with rfl | ⟨d2, rfl, hd2, hdig2⟩
    · rw [List.append_nil]; exact takeWhile_all hdig
    · rw [List.takeWhile_append_of_pos hdig]
      simp [List.takeWhile_cons, isDig]
  have hdrop : (d1 ++ tail).dropWhile isDig = tail := by
    rcases htail with rfl | ⟨d2, rfl, hd2, hdig2⟩
    · rw [List.append_nil]; exact dropWhile_all hdig
    · rw [List.dropWhile_append_of_pos hdig]
      simp [List.dropWhile_cons, isDig]
  simp only [parseNumParts, spanDigits, htake, hdrop]
  rcases htail with rfl | ⟨d2, rfl, hd2, hdig2⟩
  · simp [List.isEmpty_eq_true, hd1]
  · have ht2 : d2.takeWhile isDig = d2 := takeWhile_all hdig2
    have hdr2 : d2.dropWhile isDig = [] := dropWhile_all hdig2
    simp [ht2, hdr2, List.isEmpty_eq_true, hd1]

lemma normCommaL_append (a b : List Char) :
    normCommaL (a ++ b) = normCommaL a ++ normCommaL b := List.map_append _ _ _

/-- Comma-normalizing a decimal literal produces a token that `float()`
accepts. -/
lemma floatOfToken_decimal {l : List Char} (h : DecimalLit l = true) :
    (floatOfToken (normCommaL l)).isSome = true := by
  obtain ⟨sgn, d1, tail, hsgn, rfl, hd1, hdig, htail⟩ := DecimalLit_view h
  have hnsgn : normCommaL sgn = sgn := by
    rcases hsgn with rfl | rfl | rfl <;> decide
  have hnd1 : normCommaL d1 = d1 :=
    map_id_on fun c hc => if_neg (isDig_ne (hdig c hc)).2.2.2.1
  have hntail : ∃ tail', normCommaL tail = tail' ∧
      (tail' = [] ∨ ∃ d2, tail' = '.' :: d2 ∧ d2 ≠ [] ∧ ∀ c ∈ d2, isDig c = true) := by
    rcases htail with rfl | ⟨d2, hsep, hd2, hdig2⟩
    · exact ⟨[], rfl, Or.inl rfl⟩
    · have hnd2 : normCommaL d2 = d2 :=
        map_id_on fun c hc => if_neg (isDig_ne (hdig2 c hc)).2.2.2.1
      refine ⟨'.' :: d2, ?_, Or.inr ⟨d2, rfl, hd2, hdig2⟩⟩
      rcases hsep with rfl | rfl <;>
        · show List.map _ _ = _
          rw [List.map_cons]
          unfold normCommaL at hnd2
          rw [hnd2]
          simp
  obtain ⟨tail', hnt, htail'⟩ := hntail
  have hfull : normCommaL (sgn ++ d1 ++ tail) = sgn ++ d1 ++ tail' := by
    rw [normCommaL_append, normCommaL_append, hnsgn, hnd1, hnt]
  rw [hfull]
  obtain ⟨c0, d1', rfl⟩ := List.exists_cons_of_ne_nil hd1
  have hc0 : isDig c0 = true := hdig c0 (by simp)
  have hsplit : splitSign (sgn ++ (c0 :: d1') ++ tail') =
      (sgn == ['-'], (c0 :: d1') ++ tail') := by
    rcases hsgn with rfl | rfl | rfl
    · simp [splitSign, (isDig_ne hc0).1, (isDig_ne hc0).2.1]
    · simp [splitSign]
    · simp [splitSign]
  have hlow : ((c0 :: d1') ++ tail').map asciiLower =
      c0 :: (d1' ++ tail').map asciiLower := by
    simp [asciiLower_of_isDig hc0]
  have hinf : ¬(((c0 :: d1') ++ tail').map asciiLower = "inf".data) := by
    rw [hlow]
    intro heq
    rw [show "inf".data = ['i', 'n', 'f'] from rfl] at heq
    exact (isDig_ne hc0).2.2.2.2.2.1 (List.cons_eq_cons.mp heq).1
  have hinfy : ¬(((c0 :: d1') ++ tail').map asciiLower = "infinity".data) := by
    rw [hlow]
    intro heq
    rw [show "infinity".data = ['i', 'n', 'f', 'i', 'n', 'i', 't', 'y'] from rfl] at heq
    exact (isDig_ne hc0).2.2.2.2.2.1 (List.cons_eq_cons.mp heq).1
  have hnan : ¬(((c0 :: d1') ++ tail').map asciiLower = "nan".data) := by
    rw [hlow]
    intro heq
    rw [show "nan".data = ['n', 'a', 'n'] from rfl] at heq
    exact (isDig_ne hc0).2.2.2.2.2.2 (List.cons_eq_cons.mp heq).1
  have hundm : ∀ c ∈ (c0 :: d1') ++ tail', c ≠ '_' := by
    intro c hc
    rcases List.mem_append.mp hc with hc | hc
    · exact (isDig_ne (hdig c hc)).2.2.2.2.1
    · rcases htail' with rfl | ⟨d2, rfl, hd2, hdig2⟩
      · simp at hc
      · rcases List.mem_cons.mp hc with rfl | hc
        · decide
        · exact (isDig_ne (hdig2 c hc)).2.2.2.2.1
  have hund : undOK ((c0 :: d1') ++ tail') = true := undOK_of_no_underscore hundm
  have hstripU : stripU ((c0 :: d1') ++ tail') = (c0 :: d1') ++ tail' :=
    List.filter_eq_self.mpr fun c hc => by
      simpa [bne_iff_ne] using hundm c hc
  have hparse := parseNumParts_isSome (List.cons_ne_nil c0 d1') hdig htail'
  obtain ⟨p, hp⟩ := Option.isSome_iff_exists.mp hparse
  have hne : (sgn ++ (c0 :: d1') ++ tail').isEmpty = false := by
    rcases hsgn with rfl | rfl | rfl <;> simp
  simp only [floatOfToken, hne, hsplit, hund, hstripU, hp, Bool.false_eq_true,
    if_false, hinf, hinfy, hnan, decide_eq_true_eq]
  simp only [decide_eq_false hinf, decide_eq_false hinfy, decide_eq_false hnan,
    Bool.or_self, Bool.false_or, if_false, if_true]
  repeat' first | rfl | split

lemma DecimalLit_chars {l : List Char} (h : DecimalLit l = true) :
    l ≠ [] ∧ ∀ c ∈ l, pyIsSpace c = false := by
  obtain ⟨sgn, d1, tail, hsgn, rfl, hd1, hdig, htail⟩ := DecimalLit_view h
  constructor
  · rcases hsgn with rfl | rfl | rfl <;> simp [hd1]
  · intro c hc
    rcases List.mem_append.mp hc with hc | hc
    · rcases List.mem_append.mp hc with hc | hc
      · rcases hsgn with rfl | rfl | rfl
        · simp at hc
        · rcases List.mem_singleton.mp hc with rfl; decide
        · rcases List.mem_singleton.mp hc with rfl; decide
      · exact pyIsSpace_of_isDig (hdig c hc)
    · rcases htail with rfl | ⟨d2, hsep, hd2, hdig2⟩
      · simp at hc
      · rcases hsep with rfl | rfl <;>
          rcases List.mem_cons.mp hc with rfl | hc
        · decide
        · exact pyIsSpace_of_isDig (hdig2 c hc)
        · decide
        · exact pyIsSpace_of_isDig (hdig2 c hc)

lemma dropWhile_eq_self_of_head {l : List Char}
    (h : ∀ c, l.head? = some c → pyIsSpace c = false) :
    l.dropWhile pyIsSpace = l := by
  cases l with
  | nil => rfl
  | cons c r => exact List.dropWhile_cons_of_neg (by simp [h c rfl])

lemma stripL_eq_self {l : List Char}
    (hh : ∀ c, l.head? = some c → pyIsSpace c = false)
    (hl : ∀ c, l.getLast? = some c → pyIsSpace c = false) :
    stripL l = l := by
  unfold stripL
  rw [dropWhile_eq_self_of_head hh,
    dropWhile_eq_self_of_head fun c hc => hl c (by rwa [List.head?_reverse] at hc)]
  exact l.reverse_reverse

/-- Splitting `<token> <category>` where the token is whitespace-free and the
category starts with a non-whitespace character. -/
lemma splitMax2_append {a cat : List Char} (ha : a ≠ [])
    (haws : ∀ c ∈ a, pyIsSpace c = false) (hcat : cat ≠ [])
    (hcathead : ∀ c, cat.head? = some c → pyIsSpace c = false) :
    splitMax2L (a ++ ' ' :: cat) =
      if ((dropTok cat).dropWhile pyIsSpace).isEmpty then [a, takeTok cat]
      else [a, takeTok cat, (dropTok cat).dropWhile pyIsSpace] := by
  have haws' : ∀ c ∈ a, (!pyIsSpace c) = true := fun c hc => by simp [haws c hc]
  have h1 : (a ++ ' ' :: cat).dropWhile pyIsSpace = a ++ ' ' :: cat := by
    apply dropWhile_eq_self_of_head
    intro c hc
    obtain ⟨a0, a', rfl⟩ := List.exists_cons_of_ne_nil ha
    simp only [List.cons_append, List.head?_cons, Option.some.injEq] at hc
    exact hc ▸ haws a0 (by simp)
  have ht1 : takeTok (a ++ ' ' :: cat) = a := by
    unfold takeTok
    rw [List.takeWhile_append_of_pos haws']
    simp [List.takeWhile_cons, (by decide : pyIsSpace ' ' = true)]
  have hd1 : dropTok (a ++ ' ' :: cat) = ' ' :: cat := by
    unfold dropTok
    rw [List.dropWhile_append_of_pos haws']
    simp [List.dropWhile_cons, (by decide : pyIsSpace ' ' = true)]
  have hr1 : (' ' :: cat).dropWhile pyIsSpace = cat := by
    rw [List.dropWhile_cons_of_pos (by decide)]
    exact dropWhile_eq_self_of_head hcathead
  have hne : (a ++ ' ' :: cat).isEmpty = false := by
    obtain ⟨a0, a', rfl⟩ := List.exists_cons_of_ne_nil ha
    simp
  have hcne : cat.isEmpty = false := by
    obtain ⟨c0, r, rfl⟩ := List.exists_cons_of_ne_nil hcat
    simp
  simp only [splitMax2L, h1, hne, ht1, hd1, hr1, hcne, Bool.false_eq_true, if_false]

lemma CatGood_view {cat : List Char} (h : CatGood cat = true) :
    cat ≠ [] ∧ (∀ c, cat.head? = some c → pyIsSpace c = false) ∧
    (∀ c, cat.getLast? = some c → pyIsSpace c = false) ∧
    cat = takeTok cat ++
      (if ((dropTok cat).dropWhile pyIsSpace).isEmpty then []
       else ' ' :: (dropTok cat).dropWhile pyIsSpace) := by
  cases cat with
  | nil => simp [CatGood] at h
  | cons c0 rest =>
    simp only [CatGood, Bool.and_eq_true, Bool.not_eq_true', beq_iff_eq] at h
    obtain ⟨⟨hh, hl⟩, hrec⟩ := h
    refine ⟨by simp, ?_, ?_, hrec⟩
    · intro c hc
      simp only [List.head?_cons, Option.some.injEq] at hc
      exact hc ▸ hh
    · intro c hc
      rw [show (c0 :: rest).getLast? = some ((c0 :: rest).getLastD c0) from rfl,
        Option.some.injEq] at hc
      exact hc ▸ hl

/-- The parser on `"<decimal> <good category>"`: the amount is `float()` of
the comma-normalized decimal token and the category comes back verbatim,
lower-cased. -/
lemma parse_expense_append {a cat : List Char}
    (ha : DecimalLit a = true) (hcat : CatGood cat = true) :
    parse_expense ⟨a ++ ' ' :: cat⟩ =
      (floatOfToken (normCommaL a)).map fun v => (v, (⟨pyLowerL cat⟩ : String)) := by
  obtain ⟨hane, haws⟩ := DecimalLit_chars ha
  obtain ⟨hcne, hch, hcl, hrec⟩ := CatGood_view hcat
  have hstrip : stripL (a ++ ' ' :: cat) = a ++ ' ' :: cat := by
    apply stripL_eq_self
    · intro c hc
      obtain ⟨a0, a', rfl⟩ := List.exists_cons_of_ne_nil hane
      simp only [List.cons_append, List.head?_cons, Option.some.injEq] at hc
      exact hc ▸ haws a0 (by simp)
    · intro c hc
      rw [List.getLast?_append_of_ne_nil _ (by simp : (' ' :: cat) ≠ []),
        show (' ' :: cat) = [' '] ++ cat from rfl,
        List.getLast?_append_of_ne_nil _ hcne] at hc
      exact hcl c hc
  have hsplit := splitMax2_append hane haws hcne hch
  unfold parse_expense
  rw [show (⟨a ++ ' ' :: cat⟩ : String).data = a ++ ' ' :: cat from rfl, hstrip, hsplit]
  cases hr2 : ((dropTok cat).dropWhile pyIsSpace).isEmpty with
  | true =>
    rw [hr2] at hrec
    simp only [if_true, List.append_nil] at hrec
    simp only [if_true]
    cases hfo : floatOfToken (normCommaL a) with
    | none => simp
    | some amt => simp [← hrec]
  | false =>
    rw [hr2] at hrec
    simp only [Bool.false_eq_true, if_false] at hrec
    simp only [Bool.false_eq_true, if_false]
    cases hfo : floatOfToken (normCommaL a) with
    | none => simp
    | some amt => simp [← hrec]

lemma string_append_data (a cat : String) :
    (a ++ " " ++ cat).data = a.data ++ ' ' :: cat.data := by
  rw [String.data_append, String.data_append]
  simp [List.append_assoc]

/-- Building a `CatGood` category from a word and a verbatim remainder. -/
lemma CatGood_two_part {w r : List Char} (hw : w ≠ [])
    (hwws : ∀ c ∈ w, pyIsSpace c = false) (hrne : r ≠ [])
    (hrh : ∀ c, r.head? = some c → pyIsSpace c = false)
    (hrl : ∀ c, r.getLast? = some c → pyIsSpace c = false) :
    CatGood (w ++ ' ' :: r) = true := by
  have hwws' : ∀ c ∈ w, (!pyIsSpace c) = true := fun c hc => by simp [hwws c hc]
  obtain ⟨w0, w', rfl⟩ := List.exists_cons_of_ne_nil hw
  have htake : takeTok ((w0 :: w') ++ ' ' :: r) = w0 :: w' := by
    unfold takeTok
    rw [List.takeWhile_append_of_pos hwws']
    simp [List.takeWhile_cons, (by decide : pyIsSpace ' ' = true)]
  have hdrop : dropTok ((w0 :: w') ++ ' ' :: r) = ' ' :: r := by
    unfold dropTok
    rw [List.dropWhile_append_of_pos hwws']
    simp [List.dropWhile_cons, (by decide : pyIsSpace ' ' = true)]
  have hr1 : (' ' :: r).dropWhile pyIsSpace = r := by
    rw [List.dropWhile_cons_of_pos (by decide)]
    exact dropWhile_eq_self_of_head hrh
  have hrempty : r.isEmpty = false := by
    obtain ⟨r0, r', rfl⟩ := List.exists_cons_of_ne_nil hrne
    simp
  have hlast : ((w0 :: w') ++ ' ' :: r).getLast? = r.getLast? := by
    rw [List.getLast?_append_of_ne_nil _ (by simp : (' ' :: r) ≠ []),
      show (' ' :: r) = [' '] ++ r from rfl, List.getLast?_append_of_ne_nil _ hrne]
  obtain ⟨rl, hrlast⟩ : ∃ x, r.getLast? = some x := by
    obtain ⟨r0, r', rfl⟩ := List.exists_cons_of_ne_nil hrne
    exact ⟨(r0 :: r').getLastD r0, rfl⟩
  show CatGood (w0 :: (w' ++ ' ' :: r)) = true
  simp only [CatGood]
  rw [show (w0 :: (w' ++ ' ' :: r)).getLastD w0 = rl from by
    have := hlast
    rw [hrlast, show ((w0 :: w') ++ ' ' :: r).getLast? =
      some ((w0 :: (w' ++ ' ' :: r)).getLastD w0) from rfl] at this
    exact (Option.some.injEq .. ▸ this :)]
  rw [show (w0 :: (w' ++ ' ' :: r)) = (w0 :: w') ++ ' ' :: r from rfl, htake, hdrop, hr1]
  simp [hwws w0 (by simp), hrl rl hrlast, hrempty]

/-! Claim theorems about the expense parser. -/

/-- C1, counterexample: for the valid decimal `a = "5"` and the category text
`cat = "x  y"` (two words, two spaces between them), parsing `"{a} {cat}"`
succeeds but does **not** return `lowercase(cat)`: the split collapses the
first whitespace run, so the category comes back `"x y"`. -/
theorem C1_counterexample :
    parse_expense "5 x  y" = some (.finite 5, "x y") ∧
    parse_expense "5 x  y" ≠ some (.finite 5, pyLower "x  y") := by decide

/-- C1 (amended): for every valid decimal string `a` (optionally with a comma
separator) and every category text `cat` with no leading or trailing
whitespace and a single space between its first word and the remainder,
parsing `"{a} {cat}"` succeeds and yields `float(a with comma→dot)` (the
comma-to-dot normalization touching only the amount token) paired with
`lowercase(cat)`. -/
theorem C1_parse_decimal_category (a cat : String)
    (ha : DecimalLit a.data = true) (hcat : CatGood cat.data = true) :
    (floatOfToken (normCommaL a.data)).isSome = true ∧
    parse_expense (a ++ " " ++ cat) =
      (floatOfToken (normCommaL a.data)).map fun v => (v, pyLower cat) := by
  refine ⟨floatOfToken_decimal ha, ?_⟩
  rw [String.ext (string_append_data a cat), parse_expense_append ha hcat]
  rfl

/-- Witness for C1 at `a = "3,5"`, `cat = "Кофе late"`. -/
theorem C1_witness :
    (floatOfToken (normCommaL "3,5".data)).isSome = true ∧
    parse_expense ("3,5" ++ " " ++ "Кофе late") =
      (floatOfToken (normCommaL "3,5".data)).map fun v => (v, pyLower "Кофе late") :=
  C1_parse_decimal_category "3,5" "Кофе late" (by decide) (by decide)

/-- C7: an input whose stripped text is a single `float()`-accepted token
gets the sentinel default category `"прочее"`; in particular
`parse("200") = (200.0, "прочее")`. -/
theorem C7_default_category :
    (∀ (text : String) (t : List Char) (v : PyFloat),
      splitMax2L (stripL text.data) = [t] → floatOfToken (normCommaL t) = some v →
      parse_expense text = some (v, "прочее")) ∧
    parse_expense "200" = some (.finite 200, "прочее") := by
  constructor
  · intro text t v h1 h2
    unfold parse_expense
    rw [h1]
    simp [h2, show (⟨pyLowerL "прочее".data⟩ : String) = "прочее" from by decide]
  · decide

/-- Witness for C7 at `"200"`. -/
theorem C7_witness : parse_expense "200" = some (.finite 200, "прочее") :=
  C7_default_category.1 "200" "200".data (.finite 200) (by decide) (by decide)

/-- C9: when the first token is a decimal number and the line has four or
more whitespace-separated words (`w` is the second word, `r` the verbatim
remainder, itself containing whitespace), the parser succeeds and the
category is `w`, one space, then `r` exactly as typed, lower-cased:
categories are not limited to two words and the remainder's internal
whitespace survives. -/
theorem C9_multiword_category (a w r : String)
    (ha : DecimalLit a.data = true)
    (hwne : w.data ≠ []) (hwws : ∀ c ∈ w.data, pyIsSpace c = false)
    (hrne : r.data ≠ [])
    (hrh : ∀ c, r.data.head? = some c → pyIsSpace c = false)
    (hrl : ∀ c, r.data.getLast? = some c → pyIsSpace c = false)
    (hmulti : r.data.any pyIsSpace = true) :
    (floatOfToken (normCommaL a.data)).isSome = true ∧
    parse_expense (a ++ " " ++ (w ++ " " ++ r)) =
      (floatOfToken (normCommaL a.data)).map fun v => (v, pyLower (w ++ " " ++ r)) := by
  have hcat : CatGood (w ++ " " ++ r).data = true := by
    rw [string_append_data]
    exact CatGood_two_part hwne hwws hrne hrh hrl
  refine ⟨floatOfToken_decimal ha, ?_⟩
  rw [String.ext (string_append_data a (w ++ " " ++ r)),
    parse_expense_append ha hcat]
  rfl

/-- Witness for C9 at `"1.5 Кофе с  молоком"` (four words, double space
inside the remainder, preserved and lower-cased). -/
theorem C9_witness :
    (floatOfToken (normCommaL "1.5".data)).isSome = true ∧
    parse_expense ("1.5" ++ " " ++ ("Кофе" ++ " " ++ "с  молоком")) =
      (floatOfToken (normCommaL "1.5".data)).map
        fun v => (v, pyLower ("Кофе" ++ " " ++ "с  молоком")) :=
  C9_multiword_category "1.5" "Кофе" "с  молоком" (by decide) (by decide)
    (by decide) (by decide) (by decide) (by decide) (by decide)

lemma splitMax2L_shape (l : List Char) :
    splitMax2L l = [] ∨
    ∃ rest, splitMax2L l = takeTok (l.dropWhile pyIsSpace) :: rest := by
  simp only [splitMax2L]
  split
  · exact Or.inl rfl
  · split
    · exact Or.inr ⟨[], rfl⟩
    · split
      · exact Or.inr ⟨_, rfl⟩
      · exact Or.inr ⟨_, rfl⟩

/-- Whatever the parser accepts, the amount is `float()` of the
comma-normalized first whitespace-delimited token. -/
lemma parse_expense_some_inv {text : String} {v : PyFloat} {c : String}
    (h : parse_expense text = some (v, c)) :
    floatOfToken (normCommaL (takeTok ((stripL text.data).dropWhile pyIsSpace))) =
      some v := by
  unfold parse_expense at h
  rcases splitMax2L_shape (stripL text.data) with hs | ⟨rest, hs⟩
  · rw [hs] at h; simp at h
  · rw [hs] at h
    cases hfo :
        floatOfToken (normCommaL (takeTok ((stripL text.data).dropWhile pyIsSpace))) with
    | none => exact absurd h (by simp [hfo])
    | some amt =>
      simp only [hfo, Option.some.injEq, Prod.mk.injEq] at h
      exact congrArg some h.1

/-- C6: the parser rejects — returning `None`, writing nothing — the empty
string, whitespace-only input (its strip is empty), and any input whose
first whitespace-delimited token `float()` does not accept, whatever the
remaining tokens are. -/
theorem C6_rejections (text : String) :
    (stripL text.data = [] → parse_expense text = none) ∧
    (floatOfToken (normCommaL (takeTok ((stripL text.data).dropWhile pyIsSpace))) = none →
      parse_expense text = none) ∧
    parse_expense "" = none ∧ parse_expense "   " = none ∧
    parse_expense "abc food" = none := by
  refine ⟨?_, ?_, by decide, by decide, by decide⟩
  · intro h
    unfold parse_expense
    rw [h]
    rfl
  · intro h
    cases hp : parse_expense text with
    | none => rfl
    | some p =>
      obtain ⟨v, c⟩ := p
      have hinv := parse_expense_some_inv hp
      rw [h] at hinv
      simp at hinv

/-- Witness for C6: the empty string (whitespace-free case) and a
non-numeric first token. -/
theorem C6_witness : parse_expense "" = none ∧ parse_expense "abc food" = none :=
  ⟨(C6_rejections "").1 (by decide), (C6_rejections "abc food").2.1 (by decide)⟩

/-- C10: the parser imposes no sign or magnitude restriction — every decimal
first token is accepted, `parse("-5 food") = (-5.0, "food")`,
`parse("0 кофе") = (0.0, "кофе")` — and the recording path inserts such
records unchanged (the `NUMERIC(12,2)` conversion is exact on them). -/
theorem C10_no_sign_restriction :
    (∀ (a cat : String), DecimalLit a.data = true → CatGood cat.data = true →
      (parse_expense (a ++ " " ++ cat)).isSome = true) ∧
    parse_expense "-5 food" = some (.finite (-5), "food") ∧
    parse_expense "0 кофе" = some (.finite 0, "кофе") ∧
    ∀ (table : List Record) (u t : ℤ),
      add_expense table u "-5 food" t = table ++ [⟨u, .finite (-5), "food", t⟩] := by
  refine ⟨?_, by decide, by decide, ?_⟩
  · intro a cat ha hcat
    rw [String.ext (string_append_data a cat), parse_expense_append ha hcat]
    have hs := floatOfToken_decimal ha
    cases hfo : floatOfToken (normCommaL a.data) with
    | none => rw [hfo] at hs; simp at hs
    | some amt => simp
  · intro table u t
    simp [add_expense, show parse_expense "-5 food" = some (.finite (-5), "food") from by decide,
      show numeric2 (.finite (-5)) = .finite (-5) from by decide]

/-- Witness for C10 at `"-5 food"`. -/
theorem C10_witness :
    (parse_expense ("-5" ++ " " ++ "food")).isSome = true ∧
    add_expense [] 1 "-5 food" 0 = [⟨1, .finite (-5), "food", 0⟩] :=
  ⟨C10_no_sign_restriction.1 "-5" "food" (by decide) (by decide),
   C10_no_sign_restriction.2.2.2 [] 1 0⟩

/-- The comma-normalized token spells `inf`/`infinity`/`nan` (ASCII
case-insensitive, optional sign). -/
def SpellsInfOrNan (tok : List Char) : Bool :=
  let low := (splitSign tok).2.map asciiLower
  low == "inf".data || low == "infinity".data || low == "nan".data

/-- The token is a numeric literal whose signed value reaches the binary64
overflow threshold. -/
def OverflowsBinary64 (tok : List Char) : Bool :=
  match parseNumParts (stripU (splitSign tok).2) with
  | some p =>
    decide (OVERFLOW ≤ mkRat (if (splitSign tok).1 then -p.1 else p.1) p.2) ||
    decide (mkRat (if (splitSign tok).1 then -p.1 else p.1) p.2 ≤ NEGOVERFLOW)
  | none => false

/-- C5, counterexample: the parser accepts `"nan кофе"` and returns a `NaN`
amount — accepted inputs can produce non-finite amounts. -/
theorem C5_counterexample :
    parse_expense "nan кофе" = some (.nan, "кофе") ∧
    PyFloat.isFinite .nan = false := by decide

/-- C5 (amended): a parsed amount can be non-finite, but only when the
comma-normalized first token spells `inf`/`infinity`/`nan` or is a numeral
reaching the binary64 overflow threshold; every other accepted input yields
a finite amount. -/
theorem C5_nonfinite_characterization (text : String) (v : PyFloat) (c : String)
    (h : parse_expense text = some (v, c)) (hnf : v.isFinite = false) :
    SpellsInfOrNan (normCommaL (takeTok ((stripL text.data).dropWhile pyIsSpace))) = true ∨
    OverflowsBinary64 (normCommaL (takeTok ((stripL text.data).dropWhile pyIsSpace))) = true := by
  have hfo := parse_expense_some_inv h
  set tok := normCommaL (takeTok ((stripL text.data).dropWhile pyIsSpace)) with htok
  unfold floatOfToken at hfo
  cases he : tok.isEmpty with
  | true => rw [he] at hfo; simp at hfo
  | false =>
    rw [he] at hfo
    simp only [Bool.false_eq_true, if_false] at hfo
    rcases hsp : splitSign tok with ⟨neg, body⟩
    rw [hsp] at hfo
    split at hfo
    · -- inf / infinity spelling
      left
      unfold SpellsInfOrNan
      rw [hsp]
      simp only [beq_iff_eq]
      rename_i hcond
      simp only [Bool.or_eq_true, decide_eq_true_eq] at hcond
      rcases hcond with hcond | hcond <;> simp [hcond]
    · split at hfo
      · -- nan spelling
        left
        unfold SpellsInfOrNan
        rw [hsp]
        rename_i hcond
        simp only [decide_eq_true_eq] at hcond
        simp [hcond]
      · split at hfo
        · -- numeric branch
          cases hpn : parseNumParts (stripU body) with
          | none => rw [hpn] at hfo; simp at hfo
          | some p =>
            simp only [hpn] at hfo
            have hgoal : OverflowsBinary64 tok =
                (decide (OVERFLOW ≤ mkRat (if neg then -p.1 else p.1) p.2) ||
                 decide (mkRat (if neg then -p.1 else p.1) p.2 ≤ NEGOVERFLOW)) := by
              simp only [OverflowsBinary64, hsp, hpn]
            by_cases h1 : OVERFLOW ≤ mkRat (if neg then -p.1 else p.1) p.2
            · right
              rw [hgoal]
              simp [h1]
            · by_cases h2 : mkRat (if neg then -p.1 else p.1) p.2 ≤ NEGOVERFLOW
              · right
                rw [hgoal]
                simp [h2]
              · exfalso
                rw [if_neg h1, if_neg h2] at hfo
                simp only [Option.some.injEq] at hfo
                rw [← hfo] at hnf
                simp [PyFloat.isFinite] at hnf
        · simp at hfo

/-- Witness for C5 (amended) at `"inf x"`. -/
theorem C5_witness :
    SpellsInfOrNan
      (normCommaL (takeTok ((stripL ("inf x" : String).data).dropWhile pyIsSpace))) = true ∨
    OverflowsBinary64
      (normCommaL (takeTok ((stripL ("inf x" : String).data).dropWhile pyIsSpace))) = true :=
  C5_nonfinite_characterization "inf x" .inf "x" (by decide) (by decide)

/-! Calendar lemmas. -/

lemma daysInMonth_pos (y m : ℕ) : 1 ≤ daysInMonth y m := by
  unfold daysInMonth
  split
  · split <;> omega
  · split <;> omega

set_option maxHeartbeats 2000000 in
lemma daysBeforeYear_succ {y : ℕ} (hy : 1 ≤ y) :
    daysBeforeYear (y + 1) = daysBeforeYear y + (if isLeap y then 366 else 365) := by
  unfold daysBeforeYear isLeap
  split
  · rename_i hc
    simp only [Bool.or_eq_true, Bool.and_eq_true, beq_iff_eq, bne_iff_ne, ne_eq] at hc
    omega
  · rename_i hc
    simp only [Bool.or_eq_true, Bool.and_eq_true, beq_iff_eq, bne_iff_ne, ne_eq,
      not_or, not_and, Decidable.not_not] at hc
    omega

lemma daysBeforeMonth_12 (y : ℕ) :
    daysBeforeMonth y 12 = 334 + (if isLeap y then 1 else 0) := by
  simp only [daysBeforeMonth, daysInMonth]
  norm_num
  split <;> omega

lemma toOrdinal_pos {t : DateTime} (h : t.Valid) : 1 ≤ t.toOrdinal := by
  obtain ⟨_, _, _, _, hd, _⟩ := h
  unfold DateTime.toOrdinal
  omega

lemma daysBeforeMonth_succ (y m : ℕ) (h : 1 ≤ m) :
    daysBeforeMonth y (m + 1) = daysBeforeMonth y m + daysInMonth y m := by
  obtain ⟨k, rfl⟩ : ∃ k, m = k + 1 := ⟨m - 1, by omega⟩
  rfl

lemma prevDay_spec {t : DateTime} (h : t.Valid) (h2 : 2 ≤ t.toOrdinal) :
    t.prevDay.Valid ∧ t.prevDay.toOrdinal = t.toOrdinal - 1 ∧
    t.prevDay.hour = t.hour ∧ t.prevDay.minute = t.minute ∧
    t.prevDay.second = t.second ∧ t.prevDay.microsecond = t.microsecond := by
  obtain ⟨y, m, d, hr, mi, sec, us⟩ := t
  simp only [DateTime.Valid] at h
  obtain ⟨hy1, hy2, hm1, hm2, hd1, hd2, hh, hmi, hs, hus⟩ := h
  simp only [DateTime.toOrdinal] at h2
  unfold DateTime.prevDay
  by_cases hday : 1 < d
  · rw [if_pos hday]
    refine ⟨⟨hy1, hy2, hm1, hm2, ?_, ?_, hh, hmi, hs, hus⟩, ?_, rfl, rfl, rfl, rfl⟩
    · simp only []
      omega
    · simp only []
      omega
    · simp only [DateTime.toOrdinal]
      omega
  · by_cases hmon : 1 < m
    · rw [if_neg hday, if_pos hmon]
      have hd' : d = 1 := by omega
      subst hd'
      have hdimpos := daysInMonth_pos y (m - 1)
      have hsucc := daysBeforeMonth_succ y (m - 1) (by omega)
      have hmm : (m - 1) + 1 = m := by omega
      rw [hmm] at hsucc
      refine ⟨⟨hy1, hy2, ?_, ?_, ?_, ?_, hh, hmi, hs, hus⟩, ?_, rfl, rfl, rfl, rfl⟩
      · simp only []
        omega
      · simp only []
        omega
      · simp only []
        omega
      · simp only []
        omega
      · simp only [DateTime.toOrdinal]
        omega
    · rw [if_neg hday, if_neg hmon]
      have hd' : d = 1 := by omega
      have hm' : m = 1 := by omega
      subst hd'
      subst hm'
      have hy2' : 2 ≤ y := by
        simp only [daysBeforeMonth] at h2
        unfold daysBeforeYear at h2
        omega
      have heq : y = (y - 1) + 1 := by omega
      have hsucc := daysBeforeYear_succ (y := y - 1) (by omega)
      have h3 : daysBeforeYear ((y - 1) + 1) = daysBeforeYear y := by rw [← heq]
      rw [h3] at hsucc
      have h12 := daysBeforeMonth_12 (y - 1)
      refine ⟨⟨?_, ?_, ?_, ?_, ?_, ?_, hh, hmi, hs, hus⟩, ?_, rfl, rfl, rfl, rfl⟩
      · simp only []
        omega
      · simp only []
        omega
      · simp only []
        omega
      · simp only []
        omega
      · simp only []
        omega
      · simp only []
        simp [daysInMonth]
      · simp only [DateTime.toOrdinal]
        have h1 : daysBeforeMonth y 1 = 0 := rfl
        cases hL : isLeap (y - 1) <;>
          simp only [hL, Bool.false_eq_true, if_false, if_true] at hsucc h12 <;>
          omega

/-- Python `datetime - timedelta(days=n)` inside the calendar: the ordinal drops by
`n`, validity and the time of day are preserved. -/
lemma subDays_spec :
    ∀ (n : ℕ) (t : DateTime), t.Valid → n < t.toOrdinal →
    (t.subDays n).Valid ∧ (t.subDays n).toOrdinal = t.toOrdinal - n ∧
    (t.subDays n).hour = t.hour ∧ (t.subDays n).minute = t.minute ∧
    (t.subDays n).second = t.second ∧ (t.subDays n).microsecond = t.microsecond := by
  intro n
  induction n with
  | zero => exact fun t h _ => ⟨h, by simp [DateTime.subDays], rfl, rfl, rfl, rfl⟩
  | succ n ih =>
    intro t h hlt
    have h2 : 2 ≤ t.toOrdinal := by omega
    obtain ⟨hv', hord', hh', hmi', hs', hus'⟩ := prevDay_spec h h2
    have hlt' : n < t.prevDay.toOrdinal := by omega
    obtain ⟨hv2, hord2, hh2, hmi2, hs2, hus2⟩ := ih t.prevDay hv' hlt'
    have hdef : t.subDays (n + 1) = t.prevDay.subDays n := rfl
    exact ⟨hdef ▸ hv2, by rw [hdef, hord2, hord']; omega,
      by rw [hdef, hh2, hh'], by rw [hdef, hmi2, hmi'],
      by rw [hdef, hs2, hs'], by rw [hdef, hus2, hus']⟩

lemma atMidnight_valid {t : DateTime} (h : t.Valid) : t.atMidnight.Valid := by
  obtain ⟨y, m, d, hr, mi, sec, us⟩ := t
  simp only [DateTime.Valid, DateTime.atMidnight] at h ⊢
  omega

lemma atMidnight_toOrdinal (t : DateTime) : t.atMidnight.toOrdinal = t.toOrdinal := rfl

lemma atMidnight_weekday (t : DateTime) : t.atMidnight.weekday = t.weekday := rfl

lemma instant_atMidnight (t : DateTime) :
    t.atMidnight.instant = (t.toOrdinal : ℤ) * 86400000000 := by
  obtain ⟨y, m, d, hr, mi, sec, us⟩ := t
  simp [DateTime.instant, DateTime.atMidnight, DateTime.toOrdinal]

lemma le_instant (t : DateTime) : (t.toOrdinal : ℤ) * 86400000000 ≤ t.instant := by
  obtain ⟨y, m, d, hr, mi, sec, us⟩ := t
  simp only [DateTime.instant]
  omega

/-- C2: for a fixed valid `now`, the period resolver returns `end = now` in
every case; `"day"` (and its Russian aliases, matched after lower-casing)
yields midnight of the current day; `"week"` yields the most recent Monday
midnight at or before `now` (a valid Monday-midnight instant, at most six
calendar days back); any other keyword, and an absent keyword, yield the
first day of the current month at midnight. -/
theorem C2_period_resolution (now : DateTime) (hv : now.Valid) :
    (∀ p : Option String, (get_period_bounds p now).2 = now) ∧
    (∀ s : String, (pyLower s = "day" ∨ pyLower s = "сегодня" ∨ pyLower s = "день") →
      get_period_bounds (some s) now =
        (⟨now.year, now.month, now.day, 0, 0, 0, 0⟩, now)) ∧
    (∀ s : String, (pyLower s = "week" ∨ pyLower s = "неделя") →
      get_period_bounds (some s) now = ((now.subDays now.weekday).atMidnight, now) ∧
      ((now.subDays now.weekday).atMidnight.Valid ∧
        (now.subDays now.weekday).atMidnight.weekday = 0 ∧
        (now.subDays now.weekday).atMidnight.hour = 0 ∧
        (now.subDays now.weekday).atMidnight.minute = 0 ∧
        (now.subDays now.weekday).atMidnight.second = 0 ∧
        (now.subDays now.weekday).atMidnight.microsecond = 0 ∧
        (now.subDays now.weekday).atMidnight.instant ≤ now.instant ∧
        now.toOrdinal - (now.subDays now.weekday).atMidnight.toOrdinal ≤ 6)) ∧
    (∀ s : String,
      pyLower s ∉ (["day", "сегодня", "день", "week", "неделя"] : List String) →
      get_period_bounds (some s) now =
        (⟨now.year, now.month, 1, 0, 0, 0, 0⟩, now)) ∧
    get_period_bounds none now = (⟨now.year, now.month, 1, 0, 0, 0, 0⟩, now) := by
  have hword : now.weekday < now.toOrdinal ∧ now.weekday ≤ 6 := by
    have := toOrdinal_pos hv
    unfold DateTime.weekday
    omega
  obtain ⟨hs1, hs2, hs3, hs4, hs5, hs6⟩ := subDays_spec now.weekday now hv hword.1
  refine ⟨?_, ?_, ?_, ?_, ?_⟩
  · intro p
    simp only [get_period_bounds]
    split
    · rfl
    · split <;> rfl
  · intro s hs
    simp only [get_period_bounds]
    rw [show (some s).getD "" = s from rfl, if_pos hs]
    rfl
  · intro s hs
    have hnotday : ¬(pyLower s = "day" ∨ pyLower s = "сегодня" ∨ pyLower s = "день") := by
      rcases hs with hs | hs <;> rw [hs] <;> decide
    refine ⟨?_, ?_⟩
    · simp only [get_period_bounds]
      rw [show (some s).getD "" = s from rfl, if_neg hnotday, if_pos hs]
    · have hword2 := hword.2
      have hweek : (DateTime.toOrdinal now + 6) % 7 = now.weekday := rfl
      have hlow := le_instant now
      generalize hS : now.subDays now.weekday = S at hs1 hs2 hs3 hs4 hs5 hs6 ⊢
      refine ⟨atMidnight_valid hs1, ?_, rfl, rfl, rfl, rfl, ?_, ?_⟩
      · rw [atMidnight_weekday]
        unfold DateTime.weekday
        rw [hs2]
        unfold DateTime.weekday at hword2 ⊢
        omega
      · rw [instant_atMidnight, hs2]
        omega
      · rw [atMidnight_toOrdinal, hs2]
        omega
  · intro s hs
    simp only [List.mem_cons, List.mem_singleton, not_or] at hs
    obtain ⟨n1, n2, n3, n4, n5, _⟩ := hs
    simp only [get_period_bounds]
    rw [show (some s).getD "" = s from rfl,
      if_neg (by rintro (h | h | h) <;> [exact n1 h; exact n2 h; exact n3 h]),
      if_neg (by rintro (h | h) <;> [exact n4 h; exact n5 h])]
    rfl
  · simp only [get_period_bounds]
    rw [show (none : Option String).getD "" = "" from rfl,
      if_neg (by decide), if_neg (by decide)]
    rfl

/-- Witness for C2 at `now = 2025-10-08 12:00:00.000005` (a Wednesday), with
the Russian week alias in mixed case and the absent keyword. -/
theorem C2_witness :
    get_period_bounds (some "Неделя") ⟨2025, 10, 8, 12, 0, 0, 5⟩ =
      ((DateTime.subDays ⟨2025, 10, 8, 12, 0, 0, 5⟩
          (DateTime.weekday ⟨2025, 10, 8, 12, 0, 0, 5⟩)).atMidnight,
        ⟨2025, 10, 8, 12, 0, 0, 5⟩) ∧
    get_period_bounds none ⟨2025, 10, 8, 12, 0, 0, 5⟩ =
      (⟨2025, 10, 1, 0, 0, 0, 0⟩, ⟨2025, 10, 8, 12, 0, 0, 5⟩) :=
  ⟨((C2_period_resolution ⟨2025, 10, 8, 12, 0, 0, 5⟩ (by decide)).2.2.1 "Неделя"
      (by decide)).1,
    (C2_period_resolution ⟨2025, 10, 8, 12, 0, 0, 5⟩ (by decide)).2.2.2.2⟩

/-! Claim theorems about the ledger store. -/

lemma PyFloat.add_zero_left (x : PyFloat) : PyFloat.add (.finite 0) x = x := by
  cases x <;> simp [PyFloat.add, qAdd, Rat.mkRat_self]

/-- C8: aggregating a window holding no record of the user returns an empty
row set and a grand total of exactly `0.00` (the `COALESCE`), never absent. -/
theorem C8_empty_aggregate (u s e : ℤ) (table : List Record)
    (h : ∀ r ∈ table, ¬(r.user_id = u ∧ s ≤ r.created_at ∧ r.created_at ≤ e)) :
    stats u s e table = ([], .finite 0) := by
  have hf : table.filter (inWindow u s e) = [] := by
    rw [List.filter_eq_nil_iff]
    intro r hr
    have hr' := h r hr
    simp only [inWindow, Bool.and_eq_true, beq_iff_eq, decide_eq_true_eq, not_and] at hr' ⊢
    tauto
  unfold stats
  rw [hf]
  rfl

/-- Witness for C8: a table whose only record belongs to another user. -/
theorem C8_witness : stats 1 0 100 [⟨2, .finite 10, "food", 50⟩] = ([], .finite 0) :=
  C8_empty_aggregate 1 0 100 [⟨2, .finite 10, "food", 50⟩] (by decide)

/-- C4, counterexample: a record whose `created_at` equals the window's `end`
is **included** by the aggregation (`created_at <= %s` in the SQL), not
excluded: the claimed half-open behaviour would return `([], 0)` here. -/
theorem C4_counterexample :
    stats 1 0 100 [⟨1, .finite 10, "food", 100⟩] =
      ([("food", .finite 10)], .finite 10) ∧
    stats 1 0 100 [⟨1, .finite 10, "food", 100⟩] ≠ ([], .finite 0) := by decide

/-- C4 (amended): the aggregation interval is closed at both ends — a record
with `created_at` equal to `end` (or `start`) is counted in the rows and the
grand total, and only records outside `[start, end]` are excluded. -/
theorem C4_closed_interval (u s e : ℤ) (r : Record)
    (hu : r.user_id = u) (hse : s ≤ e) :
    ((r.created_at = e ∨ r.created_at = s) →
      stats u s e [r] = ([(r.category, numeric2 r.amount)], numeric2 r.amount)) ∧
    ((r.created_at < s ∨ e < r.created_at) →
      stats u s e [r] = ([], .finite 0)) := by
  constructor
  · intro hb
    have hw : inWindow u s e r = true := by
      simp only [inWindow, Bool.and_eq_true, beq_iff_eq, decide_eq_true_eq]
      rcases hb with hb | hb <;> exact ⟨⟨hu, by omega⟩, by omega⟩
    have hf : [r].filter (inWindow u s e) = [r] := by
      simp [List.filter_cons, hw]
    unfold stats
    rw [hf]
    simp [categories, sumAmounts, sortDesc, insertDesc, PyFloat.add_zero_left]
  · intro hb
    have hw : inWindow u s e r = false := by
      unfold inWindow
      rcases hb with hb | hb
      · simp [show ¬(s ≤ r.created_at) from by omega]
      · simp [show ¬(r.created_at ≤ e) from by omega]
    have hf : [r].filter (inWindow u s e) = [] := by
      simp [List.filter_cons, hw]
    unfold stats
    rw [hf]
    rfl

/-- Witness for C4 (amended): a boundary record at `created_at = end` and an
out-of-window record. -/
theorem C4_witness :
    stats 1 0 100 [⟨1, .finite 7, "food", 100⟩] =
      ([("food", numeric2 (PyFloat.finite 7))], numeric2 (PyFloat.finite 7)) ∧
    stats 1 0 100 [⟨1, .finite 7, "food", 101⟩] = ([], .finite 0) :=
  ⟨(C4_closed_interval 1 0 100 ⟨1, .finite 7, "food", 100⟩ rfl (by decide)).1
      (Or.inl rfl),
    (C4_closed_interval 1 0 100 ⟨1, .finite 7, "food", 101⟩ rfl (by decide)).2
      (Or.inr (by decide))⟩

/-- C3: after inserting exactly `(u, 10, "food")`, `(u, 5, "food")`,
`(u, 3, "transport")` with timestamps inside `[start, end]`, aggregating that
interval for `u` yields `[("food", 15.00), ("transport", 3.00)]` ordered by
descending total and a grand total of `18.00`. -/
theorem C3_aggregate_roundtrip (u s e t1 t2 t3 : ℤ)
    (h1 : s ≤ t1 ∧ t1 ≤ e) (h2 : s ≤ t2 ∧ t2 ≤ e) (h3 : s ≤ t3 ∧ t3 ≤ e) :
    stats u s e [⟨u, .finite 10, "food", t1⟩, ⟨u, .finite 5, "food", t2⟩,
      ⟨u, .finite 3, "transport", t3⟩] =
      ([("food", .finite 15), ("transport", .finite 3)], .finite 18) := by
  have hf : List.filter (inWindow u s e)
      [⟨u, .finite 10, "food", t1⟩, ⟨u, .finite 5, "food", t2⟩,
        ⟨u, .finite 3, "transport", t3⟩] =
      [⟨u, .finite 10, "food", t1⟩, ⟨u, .finite 5, "food", t2⟩,
        ⟨u, .finite 3, "transport", t3⟩] := by
    rw [List.filter_eq_self]
    intro r hr
    simp only [List.mem_cons, List.not_mem_nil, or_false] at hr
    rcases hr with rfl | rfl | rfl <;>
      simp only [inWindow, Bool.and_eq_true, beq_iff_eq, decide_eq_true_eq] <;>
      exact ⟨⟨trivial, by omega⟩, by omega⟩
  unfold stats
  rw [hf]
  rfl

/-- Witness for C3 at `u = 1`, window `[0, 100]`, timestamps `5, 6, 7`. -/
theorem C3_witness :
    stats 1 0 100 [⟨1, .finite 10, "food", 5⟩, ⟨1, .finite 5, "food", 6⟩,
      ⟨1, .finite 3, "transport", 7⟩] =
      ([("food", .finite 15), ("transport", .finite 3)], .finite 18) :=
  C3_aggregate_roundtrip 1 0 100 5 6 7 (by decide) (by decide) (by decide)
